import Mathlib

/-!
Verification development for the company-name duplicate finder
(`src/Finder.py`).

The program loads a CSV column `Company Name`, drops null cells and
deduplicates the remaining strings (`df['Company Name'].dropna().unique()`),
enumerates all unordered pairs of the deduplicated candidates
(`itertools.combinations(company_names, 2)`), scores each pair with
`thefuzz.fuzz.ratio`, keeps the pairs whose similarity is `>= threshold`,
sorts them by score descending, and derives summary statistics (total pair
count, mean score, count of pairs with score `>= 95`).

The embedding below models the column as a `List (Option String)` (a null
CSV cell is `none`), the threshold as an `Int` (the UI slider produces the
integers 50, 55, ..., 100, but nothing in the engine depends on that range),
and `fuzz.ratio` by its algorithm: `thefuzz` delegates to `rapidfuzz`'s
normalized Indel similarity, `100 * (1 - indel_distance / (|a| + |b|))`
where `indel_distance a b = |a| + |b| - 2 * lcs a b`, the result rounded to
the nearest integer with Python's half-to-even rounding, and defined as 100
when both strings are empty.

One caveat recorded here once: the source sorts with
`results_df.sort_values('Similarity Score', ascending=False)`, whose default
sort kind (`quicksort`) leaves the relative order of equal scores
unspecified. The model uses a stable descending insertion sort; every
theorem below about the sorted results depends only on properties invariant
under permutations of equal-score rows (membership, length, score multiset,
sortedness), not on the tie order.
-/

/-- Length of a longest common subsequence, with an explicit fuel argument
(one unit per recursive step) so the function is structurally recursive and
the kernel can evaluate it; `lcsLen` below supplies sufficient fuel. -/
def lcsLenFuel : Nat → List Char → List Char → Nat
  | 0, _, _ => 0
  | _ + 1, [], _ => 0
  | _ + 1, _ :: _, [] => 0
  | n + 1, a :: as, b :: bs =>
    if a = b then lcsLenFuel n as bs + 1
    else max (lcsLenFuel n (a :: as) bs) (lcsLenFuel n as (b :: bs))

/-- Length of a longest common subsequence of two character lists. This is
the quantity behind `fuzz.ratio`: the Indel distance (insertions and
deletions only) between `a` and `b` is `a.length + b.length - 2 * lcsLen a b`. -/
def lcsLen (as bs : List Char) : Nat :=
  lcsLenFuel (as.length + bs.length) as bs

/-- Round the rational `num / den` (with `den > 0`) to the nearest natural
number, halves to even: this is Python's built-in `round`, which `thefuzz`
applies to the similarity percentage (`int(round(scorer(s1, s2)))`). -/
def roundHalfEven (num den : Nat) : Nat :=
  if 2 * (num % den) < den then num / den
  else if den < 2 * (num % den) then num / den + 1
  else if num / den % 2 = 0 then num / den else num / den + 1

namespace fuzz

/-- `fuzz.ratio` from `thefuzz` (Finder.py line 44): the normalized Indel
similarity `100 * 2 * lcs / (|s1| + |s2|)` rounded half-to-even, and `100`
when both strings are empty. -/
def ratio (s1 s2 : String) : Nat :=
  let total := s1.data.length + s2.data.length
  if total = 0 then 100
  else roundHalfEven (200 * lcsLen s1.data s2.data) total

end fuzz

/-- One row of the results table built by the comparison loop
(Finder.py lines 45-49): the dict
`{'Company Name 1': name1, 'Company Name 2': name2, 'Similarity Score': similarity}`. -/
structure MatchPair where
  companyName1 : String
  companyName2 : String
  similarityScore : Nat
deriving DecidableEq, Repr

/-- `itertools.combinations(l, 2)`: all pairs `(l[i], l[j])` with `i < j`,
in lexicographic position order. -/
def combinations2 {α : Type} : List α → List (α × α)
  | [] => []
  | x :: xs => xs.map (fun y => (x, y)) ++ combinations2 xs

/-- `df['Company Name'].dropna()` (Finder.py line 35): the column with its
null cells removed. -/
def dropna (col : List (Option String)) : List String :=
  col.filterMap id

/-- Helper for `unique`: keep the elements not yet seen, extending the set
of seen values as the scan proceeds (this mirrors the hash-table scan
`pandas.Series.unique` performs). -/
def uniqueAux (seen : List String) : List String → List String
  | [] => []
  | x :: xs => if x ∈ seen then uniqueAux seen xs else x :: uniqueAux (x :: seen) xs

/-- `pandas.Series.unique` (Finder.py line 35): deduplicate by exact string
equality, keeping the first occurrence of each value in input order. -/
def unique (l : List String) : List String :=
  uniqueAux [] l

/-- `company_names = df['Company Name'].dropna().unique()` (Finder.py line 35). -/
def company_names (col : List (Option String)) : List String :=
  unique (dropna col)

/-- The pairs enumerated by
`for name1, name2 in combinations(company_names, 2)` (Finder.py line 43);
each element is one invocation of the similarity scorer. -/
def comparedPairs (col : List (Option String)) : List (String × String) :=
  combinations2 (company_names col)

/-- The `duplicates` list built by the loop (Finder.py lines 40-50): every
enumerated pair is scored with `fuzz.ratio`, and exactly the rows with
`similarity >= threshold` are appended, in enumeration order. -/
def duplicates (col : List (Option String)) (threshold : Int) : List MatchPair :=
  ((comparedPairs col).map
      (fun p => MatchPair.mk p.1 p.2 (fuzz.ratio p.1 p.2))).filter
    (fun m => decide (threshold ≤ (m.similarityScore : Int)))

/-- The comparison relation of
`results_df.sort_values('Similarity Score', ascending=False)`
(Finder.py line 54): row `p` may stand before row `q` when its score is at
least as large. -/
def scoreGE (p q : MatchPair) : Prop :=
  q.similarityScore ≤ p.similarityScore

instance scoreGE.instDecidableRel : DecidableRel scoreGE :=
  fun p q => inferInstanceAs (Decidable (q.similarityScore ≤ p.similarityScore))

instance scoreGE.instIsTotal : IsTotal MatchPair scoreGE :=
  ⟨fun p q => Nat.le_total q.similarityScore p.similarityScore⟩

instance scoreGE.instIsTrans : IsTrans MatchPair scoreGE :=
  ⟨fun _ _ _ h1 h2 => Nat.le_trans h2 h1⟩

/-- `results_df = results_df.sort_values('Similarity Score', ascending=False)`
(Finder.py lines 53-55): the kept rows sorted by score descending. The model
sorts with a stable insertion sort; the source's default `quicksort` leaves
the order of equal scores unspecified (see the file comment). -/
def results_df (col : List (Option String)) (threshold : Int) : List MatchPair :=
  (duplicates col threshold).insertionSort scoreGE

/-- The three statistics rendered under the results table
(Finder.py lines 88-96): total pair count, mean similarity, and the count of
rows with score `>= 95`. -/
structure Summary where
  totalPairs : Nat
  avgSimilarity : ℚ
  highConfidence : Nat
deriving DecidableEq, Repr

/-- The statistics block (Finder.py lines 52-100): the metrics are computed
only in the `if duplicates:` branch; when no pair passes the threshold the
program prints a warning instead and computes no mean (so no division by the
empty row count ever happens). `none` models that branch. -/
def summaryOf (col : List (Option String)) (threshold : Int) : Option Summary :=
  let res := results_df col threshold
  if res.isEmpty then none
  else
    some
      { totalPairs := res.length
        avgSimilarity := ((res.map (fun m => m.similarityScore)).sum : ℚ) / (res.length : ℚ)
        highConfidence := (res.filter (fun m => decide (95 ≤ m.similarityScore))).length }

/-- Position of the first occurrence of `a` in `l` (length of `l` when `a`
does not occur): the order in which `pandas.Series.unique` keeps values. -/
def firstIdx (l : List String) (a : String) : Nat :=
  match l with
  | [] => 0
  | x :: xs => if x = a then 0 else firstIdx xs a + 1

-- Sanity checks of the embedding on concrete inputs (spec section 8 pins
-- `fuzz.ratio`; 97 is the documented `rapidfuzz` value for this pair).
example : fuzz.ratio "this is a test" "this is a test!" = 97 := by decide
example : fuzz.ratio "ab" "abx" = 80 := by decide
example : fuzz.ratio "Acme Inc" "Acme Co" = 67 := by decide
example : company_names [some "Acme Inc", some "Acme Inc", none, some "Acme Co"] =
    ["Acme Inc", "Acme Co"] := by decide
example : results_df [some "ab", some "abx"] 50 = [⟨"ab", "abx", 80⟩] := by decide

/-! ### Properties of the similarity scorer -/

/-- The fueled longest-common-subsequence length is symmetric in its two
list arguments (for the same fuel). -/
theorem lcsLenFuel_comm (n : Nat) : ∀ as bs, lcsLenFuel n as bs = lcsLenFuel n bs as := by
  induction n with
  | zero => intro as bs; rfl
  | succ n ih =>
    intro as bs
    cases as with
    | nil => cases bs <;> rfl
    | cons a as =>
      cases bs with
      | nil => rfl
      | cons b bs =>
        simp only [lcsLenFuel]
        by_cases h : a = b
        · subst h
          simp [ih]
        · have h2 : ¬b = a := fun e => h e.symm
          rw [if_neg h, if_neg h2, ih (a :: as) bs, ih as (b :: bs)]
          exact Nat.max_comm _ _

/-- Longest-common-subsequence length is symmetric. -/
theorem lcsLen_comm (as bs : List Char) : lcsLen as bs = lcsLen bs as := by
  unfold lcsLen
  rw [Nat.add_comm as.length bs.length, lcsLenFuel_comm]

/-- With enough fuel, the longest common subsequence of a list with itself
is the whole list. -/
theorem lcsLenFuel_self : ∀ (as : List Char) (n : Nat), as.length ≤ n →
    lcsLenFuel n as as = as.length := by
  intro as
  induction as with
  | nil => intro n _; cases n <;> rfl
  | cons a as ih =>
    intro n hn
    cases n with
    | zero => exact absurd hn (by simp)
    | succ n =>
      have hle : as.length ≤ n := by
        simp only [List.length_cons] at hn
        omega
      simp [lcsLenFuel, ih n hle]

/-- Rounding an exact multiple of the denominator recovers the quotient. -/
theorem roundHalfEven_mul (k d : Nat) (hd : 0 < d) : roundHalfEven (k * d) d = k := by
  unfold roundHalfEven
  rw [Nat.mul_div_cancel _ hd, Nat.mul_mod_left]
  simp [hd]

/-- The similarity scorer is symmetric: swapping the two strings does not
change `fuzz.ratio`. -/
theorem fuzz.ratio_comm (s1 s2 : String) : fuzz.ratio s1 s2 = fuzz.ratio s2 s1 := by
  simp only [fuzz.ratio]
  rw [lcsLen_comm, Nat.add_comm s1.data.length s2.data.length]

/-- The similarity scorer is reflexive at the maximum: every string scores
100 against itself (the empty string included). -/
theorem fuzz.ratio_self (s : String) : fuzz.ratio s s = 100 := by
  simp only [fuzz.ratio]
  rcases Nat.eq_zero_or_pos s.data.length with h | h
  · simp [h]
  · rw [if_neg (by omega)]
    unfold lcsLen
    rw [lcsLenFuel_self s.data (s.data.length + s.data.length) (by omega)]
    rw [show 200 * s.data.length = 100 * (s.data.length + s.data.length) by ring]
    exact roundHalfEven_mul 100 _ (by omega)

/-! ### Properties of deduplication (`dropna().unique()`) -/

/-- Membership in the deduplication scan: an element is kept exactly when it
occurs in the remaining input and has not been seen yet. -/
theorem mem_uniqueAux (a : String) : ∀ (l seen : List String),
    a ∈ uniqueAux seen l ↔ a ∈ l ∧ a ∉ seen := by
  intro l
  induction l with
  | nil => intro seen; simp [uniqueAux]
  | cons x xs ih =>
    intro seen
    by_cases hx : x ∈ seen
    · rw [uniqueAux, if_pos hx, ih]
      constructor
      · rintro ⟨h1, h2⟩
        exact ⟨List.mem_cons_of_mem _ h1, h2⟩
      · rintro ⟨h1, h2⟩
        rcases List.mem_cons.mp h1 with rfl | h1
        · exact absurd hx h2
        · exact ⟨h1, h2⟩
    · rw [uniqueAux, if_neg hx]
      simp only [List.mem_cons, ih]
      constructor
      · rintro (rfl | ⟨h1, h2⟩)
        · exact ⟨Or.inl rfl, hx⟩
        · exact ⟨Or.inr h1, fun hs => h2 (Or.inr hs)⟩
      · rintro ⟨h1, h2⟩
        by_cases hax : a = x
        · exact Or.inl hax
        · rcases h1 with rfl | h1
          · exact absurd rfl hax
          · exact Or.inr ⟨h1, fun hs => hs.elim hax h2⟩

/-- The first occurrence of the head of a list is at position zero. -/
theorem firstIdx_cons_self (x : String) (xs : List String) : firstIdx (x :: xs) x = 0 := by
  simp [firstIdx]

/-- The first occurrence of a value different from the head is one past its
first occurrence in the tail. -/
theorem firstIdx_cons_ne (x a : String) (xs : List String) (h : x ≠ a) :
    firstIdx (x :: xs) a = firstIdx xs a + 1 := by
  simp [firstIdx, h]

/-- The deduplication scan keeps values in the order of their first
occurrence in its input. -/
theorem uniqueAux_pairwise : ∀ (l seen : List String),
    (uniqueAux seen l).Pairwise (fun a b => firstIdx l a < firstIdx l b) := by
  intro l
  induction l with
  | nil => intro seen; simp [uniqueAux]
  | cons x xs ih =>
    intro seen
    by_cases hx : x ∈ seen
    · rw [uniqueAux, if_pos hx]
      refine (ih seen).imp_of_mem ?_
      intro a b ha hb hab
      have ha2 := (mem_uniqueAux a xs seen).mp ha
      have hb2 := (mem_uniqueAux b xs seen).mp hb
      have hxa : x ≠ a := fun e => ha2.2 (e ▸ hx)
      have hxb : x ≠ b := fun e => hb2.2 (e ▸ hx)
      rw [firstIdx_cons_ne x a xs hxa, firstIdx_cons_ne x b xs hxb]
      omega
    · rw [uniqueAux, if_neg hx, List.pairwise_cons]
      constructor
      · intro b hb
        have hb2 := (mem_uniqueAux b xs (x :: seen)).mp hb
        have hxb : x ≠ b := fun e => hb2.2 (e ▸ List.mem_cons_self x seen)
        rw [firstIdx_cons_self, firstIdx_cons_ne x b xs hxb]
        omega
      · refine (ih (x :: seen)).imp_of_mem ?_
        intro a b ha hb hab
        have ha2 := (mem_uniqueAux a xs (x :: seen)).mp ha
        have hb2 := (mem_uniqueAux b xs (x :: seen)).mp hb
        have hxa : x ≠ a := fun e => ha2.2 (e ▸ List.mem_cons_self x seen)
        have hxb : x ≠ b := fun e => hb2.2 (e ▸ List.mem_cons_self x seen)
        rw [firstIdx_cons_ne x a xs hxa, firstIdx_cons_ne x b xs hxb]
        omega

/-- `unique` keeps values in the order of their first occurrence. -/
theorem unique_pairwise (l : List String) :
    (unique l).Pairwise (fun a b => firstIdx l a < firstIdx l b) :=
  uniqueAux_pairwise l []

/-- `unique` keeps exactly the values of its input. -/
theorem mem_unique (a : String) (l : List String) : a ∈ unique l ↔ a ∈ l := by
  simp [unique, mem_uniqueAux]

/-- `unique` produces a list with no duplicate values. -/
theorem unique_nodup (l : List String) : (unique l).Nodup :=
  (unique_pairwise l).imp fun h e => absurd (e ▸ h) (lt_irrefl _)

/-- The candidate set has no duplicate values. -/
theorem company_names_nodup (col : List (Option String)) : (company_names col).Nodup :=
  unique_nodup (dropna col)

/-! ### Properties of pair enumeration (`combinations(company_names, 2)`) -/

/-- `combinations(l, 2)` enumerates `C choose 2` pairs for `C` candidates. -/
theorem combinations2_length {α : Type} : ∀ l : List α,
    (combinations2 l).length = Nat.choose l.length 2 := by
  intro l
  induction l with
  | nil => rfl
  | cons x xs ih =>
    simp only [combinations2, List.length_append, List.length_map, List.length_cons, ih,
      Nat.choose_succ_succ, Nat.choose_one_right]

/-- Both components of an enumerated pair are candidates. -/
theorem mem_combinations2 {α : Type} {p : α × α} : ∀ {l : List α},
    p ∈ combinations2 l → p.1 ∈ l ∧ p.2 ∈ l := by
  intro l
  induction l with
  | nil => intro h; simp [combinations2] at h
  | cons x xs ih =>
    intro h
    rcases List.mem_append.mp h with h | h
    · rcases List.mem_map.mp h with ⟨y, hy, he⟩
      cases he
      exact ⟨List.mem_cons_self x xs, List.mem_cons_of_mem x hy⟩
    · rcases ih h with ⟨h1, h2⟩
      exact ⟨List.mem_cons_of_mem x h1, List.mem_cons_of_mem x h2⟩

/-- A relation holding pairwise along a list holds on every enumerated pair:
`combinations(l, 2)` only produces pairs `(l[i], l[j])` with `i < j`. -/
theorem combinations2_rel {α : Type} {R : α → α → Prop} : ∀ {l : List α},
    l.Pairwise R → ∀ p ∈ combinations2 l, R p.1 p.2 := by
  intro l
  induction l with
  | nil => intro _ p hp; simp [combinations2] at hp
  | cons x xs ih =>
    intro h p hp
    rw [List.pairwise_cons] at h
    rcases List.mem_append.mp hp with hp | hp
    · rcases List.mem_map.mp hp with ⟨y, hy, he⟩
      cases he
      exact h.1 y hy
    · exact ih h.2 p hp

/-- Over a duplicate-free candidate list, every unordered pair of distinct
candidates is enumerated (in one of its two orientations). -/
theorem combinations2_mem_of : ∀ {α : Type} {l : List α}, l.Nodup →
    ∀ {a b : α}, a ∈ l → b ∈ l → a ≠ b →
      (a, b) ∈ combinations2 l ∨ (b, a) ∈ combinations2 l := by
  intro α l
  induction l with
  | nil => intro _ a b ha _ _; simp at ha
  | cons x xs ih =>
    intro hnd a b ha hb hne
    rw [List.nodup_cons] at hnd
    by_cases hax : a = x
    · subst hax
      have hbxs : b ∈ xs := by
        rcases List.mem_cons.mp hb with rfl | h
        · exact absurd rfl hne
        · exact h
      exact Or.inl (List.mem_append.mpr (Or.inl (List.mem_map.mpr ⟨b, hbxs, rfl⟩)))
    · by_cases hbx : b = x
      · subst hbx
        have haxs : a ∈ xs := by
          rcases List.mem_cons.mp ha with rfl | h
          · exact absurd rfl hax
          · exact h
        exact Or.inr (List.mem_append.mpr (Or.inl (List.mem_map.mpr ⟨a, haxs, rfl⟩)))
      · have haxs : a ∈ xs := by
          rcases List.mem_cons.mp ha with rfl | h
          · exact absurd rfl hax
          · exact h
        have hbxs : b ∈ xs := by
          rcases List.mem_cons.mp hb with rfl | h
          · exact absurd rfl hbx
          · exact h
        rcases ih hnd.2 haxs hbxs hne with h | h
        · exact Or.inl (List.mem_append.mpr (Or.inr h))
        · exact Or.inr (List.mem_append.mpr (Or.inr h))

/-- Over a duplicate-free candidate list, a pair is never enumerated in both
orientations: no `(A, B)` together with `(B, A)`. -/
theorem combinations2_not_both : ∀ {α : Type} {l : List α}, l.Nodup →
    ∀ {a b : α}, (a, b) ∈ combinations2 l → (b, a) ∉ combinations2 l := by
  intro α l
  induction l with
  | nil => intro _ a b h; simp [combinations2] at h
  | cons x xs ih =>
    intro hnd a b hab hba
    rw [List.nodup_cons] at hnd
    rcases List.mem_append.mp hab with h1 | h1
    · rcases List.mem_map.mp h1 with ⟨y, hy, he⟩
      cases he
      rcases List.mem_append.mp hba with h2 | h2
      · rcases List.mem_map.mp h2 with ⟨z, hz, he2⟩
        cases he2
        exact hnd.1 hy
      · exact hnd.1 (mem_combinations2 h2).2
    · rcases List.mem_append.mp hba with h2 | h2
      · rcases List.mem_map.mp h2 with ⟨z, hz, he2⟩
        cases he2
        exact hnd.1 (mem_combinations2 h1).2
      · exact ih hnd.2 h1 h2

/-- Over a duplicate-free candidate list, no pair is enumerated twice. -/
theorem combinations2_nodup : ∀ {α : Type} {l : List α}, l.Nodup →
    (combinations2 l).Nodup := by
  intro α l
  induction l with
  | nil => intro _; simp [combinations2]
  | cons x xs ih =>
    intro hnd
    rw [List.nodup_cons] at hnd
    refine List.Nodup.append ?_ (ih hnd.2) ?_
    · exact hnd.2.map fun y z h => congrArg Prod.snd h
    · intro p hp1 hp2
      rcases List.mem_map.mp hp1 with ⟨y, hy, he⟩
      cases he
      exact hnd.1 (mem_combinations2 hp2).1

/-! ### Properties of filtering and ranking -/

/-- Sorting only permutes the kept rows. -/
theorem results_perm (col : List (Option String)) (t : Int) :
    (results_df col t).Perm (duplicates col t) :=
  List.perm_insertionSort scoreGE _

/-- A row is in the ranked ResultSet exactly when the filter kept it. -/
theorem mem_results (m : MatchPair) (col : List (Option String)) (t : Int) :
    m ∈ results_df col t ↔ m ∈ duplicates col t :=
  (results_perm col t).mem_iff

/-- Characterization of the rows kept by the comparison loop: one row per
enumerated pair whose similarity reaches the threshold, carrying that pair
in enumeration orientation and its `fuzz.ratio` score. -/
theorem mem_duplicates (m : MatchPair) (col : List (Option String)) (t : Int) :
    m ∈ duplicates col t ↔
      ∃ p ∈ comparedPairs col,
        m = MatchPair.mk p.1 p.2 (fuzz.ratio p.1 p.2) ∧ t ≤ (fuzz.ratio p.1 p.2 : Int) := by
  simp only [duplicates, List.mem_filter, List.mem_map, decide_eq_true_eq]
  constructor
  · rintro ⟨⟨p, hp, rfl⟩, ht⟩
    exact ⟨p, hp, rfl, ht⟩
  · rintro ⟨p, hp, rfl, ht⟩
    exact ⟨⟨p, hp, rfl⟩, ht⟩

/-- The name pair carried by a kept row was an enumerated pair. -/
theorem mem_comparedPairs_of_mem_results {m : MatchPair} {col : List (Option String)}
    {t : Int} (h : m ∈ results_df col t) :
    (m.companyName1, m.companyName2) ∈ comparedPairs col := by
  rcases (mem_duplicates m col t).mp ((mem_results m col t).mp h) with ⟨p, hp, rfl, _⟩
  exact hp

/-- A duplicate-free list whose elements all equal `e`, with `e` present,
has exactly one element. -/
theorem length_eq_one_of_nodup {α : Type} {l : List α} {e : α} (hnd : l.Nodup)
    (he : e ∈ l) (hall : ∀ x ∈ l, x = e) : l.length = 1 := by
  cases l with
  | nil => simp at he
  | cons x xs =>
    cases xs with
    | nil => rfl
    | cons y ys =>
      rw [List.nodup_cons] at hnd
      exfalso
      apply hnd.1
      rw [hall x (List.mem_cons_self _ _),
        ← hall y (List.mem_cons_of_mem _ (List.mem_cons_self _ _))]
      exact List.mem_cons_self y ys

/-- Over a duplicate-free candidate list, each unordered pair of distinct
candidates is enumerated exactly once (counting both orientations). -/
theorem count_unordered_pair {α : Type} [DecidableEq α] {l : List α} (hnd : l.Nodup)
    {a b : α} (ha : a ∈ l) (hb : b ∈ l) (hne : a ≠ b) :
    ((combinations2 l).filter (fun p => decide (p = (a, b) ∨ p = (b, a)))).length = 1 := by
  have hfnd : ((combinations2 l).filter
      (fun p => decide (p = (a, b) ∨ p = (b, a)))).Nodup :=
    (combinations2_nodup hnd).filter _
  rcases combinations2_mem_of hnd ha hb hne with h | h
  · have hno : (b, a) ∉ combinations2 l := combinations2_not_both hnd h
    refine @length_eq_one_of_nodup _ _ (a, b) hfnd ?_ ?_
    · exact List.mem_filter.mpr ⟨h, by simp⟩
    · intro p hp
      rcases List.mem_filter.mp hp with ⟨hp1, hp2⟩
      rcases (decide_eq_true_eq).mp hp2 with rfl | rfl
      · rfl
      · exact absurd hp1 hno
  · have hno : (a, b) ∉ combinations2 l := combinations2_not_both hnd h
    refine @length_eq_one_of_nodup _ _ (b, a) hfnd ?_ ?_
    · exact List.mem_filter.mpr ⟨h, by simp⟩
    · intro p hp
      rcases List.mem_filter.mp hp with ⟨hp1, hp2⟩
      rcases (decide_eq_true_eq).mp hp2 with rfl | rfl
      · exact absurd hp1 hno
      · rfl

/-- Building a row from a name pair is injective in the pair. -/
theorem matchPair_of_pair_injective :
    Function.Injective (fun p : String × String =>
      MatchPair.mk p.1 p.2 (fuzz.ratio p.1 p.2)) := by
  intro p q h
  simp only [MatchPair.mk.injEq] at h
  exact Prod.ext h.1 h.2.1

/-- The kept rows carry no duplicate row. -/
theorem duplicates_nodup (col : List (Option String)) (t : Int) :
    (duplicates col t).Nodup :=
  (((combinations2_nodup (company_names_nodup col)).map
    matchPair_of_pair_injective).filter _)

/-- C1: for the candidate set of size `C` produced by deduplication, the
engine performs exactly `C*(C-1)/2` similarity comparisons, comparing each
unordered pair of distinct candidates exactly once; consequently the
ResultSet never contains a row whose left and right names are equal, no row
occurs twice, and no unordered pair appears in both orientations. -/
theorem comparisons_exact_no_self_no_swapped
    (col : List (Option String)) (t : Int) :
    (comparedPairs col).length =
        (company_names col).length * ((company_names col).length - 1) / 2
    ∧ (∀ a b : String, a ∈ company_names col → b ∈ company_names col → a ≠ b →
        ((comparedPairs col).filter
            (fun p => decide (p = (a, b) ∨ p = (b, a)))).length = 1)
    ∧ (∀ m ∈ results_df col t, m.companyName1 ≠ m.companyName2)
    ∧ (results_df col t).Nodup
    ∧ (∀ m ∈ results_df col t, ∀ m2 ∈ results_df col t,
        ¬(m.companyName1 = m2.companyName2 ∧ m.companyName2 = m2.companyName1)) := by
  refine ⟨?_, ?_, ?_, ?_, ?_⟩
  · rw [comparedPairs, combinations2_length, Nat.choose_two_right]
  · intro a b ha hb hne
    exact count_unordered_pair (company_names_nodup col) ha hb hne
  · intro m hm
    exact combinations2_rel (company_names_nodup col) _
      (mem_comparedPairs_of_mem_results hm)
  · exact (results_perm col t).nodup_iff.mpr (duplicates_nodup col t)
  · rintro m hm m2 hm2 ⟨h1, h2⟩
    have hmp := mem_comparedPairs_of_mem_results hm
    have hmp2 := mem_comparedPairs_of_mem_results hm2
    rw [h1, h2] at hmp
    exact combinations2_not_both (company_names_nodup col) hmp2 hmp

/-- The ranked ResultSet is sorted by score, non-increasing by position.
(The relative order of rows with equal scores is the model's stable order;
the source's default sort kind does not pin a tie order, see the file
comment — no theorem here claims one.) -/
theorem results_sorted (col : List (Option String)) (t : Int) :
    (results_df col t).Sorted scoreGE :=
  List.sorted_insertionSort scoreGE _

/-- C2: an unordered pair of distinct candidates appears in the ResultSet
(in one of its two orientations) if and only if the scorer's value on that
pair reaches the threshold — membership is exactly the inclusive filter
`score >= threshold`. -/
theorem resultset_membership_iff_score_ge
    (col : List (Option String)) (t : Int) (a b : String)
    (ha : a ∈ company_names col) (hb : b ∈ company_names col) (hne : a ≠ b) :
    (∃ m ∈ results_df col t,
        (m.companyName1 = a ∧ m.companyName2 = b) ∨
          (m.companyName1 = b ∧ m.companyName2 = a)) ↔
      t ≤ (fuzz.ratio a b : Int) := by
  constructor
  · rintro ⟨m, hm, hor⟩
    rcases (mem_duplicates m col t).mp ((mem_results m col t).mp hm) with ⟨p, _, rfl, ht⟩
    rcases hor with ⟨h1, h2⟩ | ⟨h1, h2⟩
    · rw [← h1, ← h2]
      exact ht
    · rw [← h1, ← h2, fuzz.ratio_comm]
      exact ht
  · intro ht
    rcases combinations2_mem_of (company_names_nodup col) ha hb hne with h | h
    · refine ⟨MatchPair.mk a b (fuzz.ratio a b), ?_, Or.inl ⟨rfl, rfl⟩⟩
      exact (mem_results _ col t).mpr
        ((mem_duplicates _ col t).mpr ⟨(a, b), h, rfl, ht⟩)
    · refine ⟨MatchPair.mk b a (fuzz.ratio b a), ?_, Or.inr ⟨rfl, rfl⟩⟩
      refine (mem_results _ col t).mpr
        ((mem_duplicates _ col t).mpr ⟨(b, a), h, rfl, ?_⟩)
      rw [fuzz.ratio_comm b a]
      exact ht

/-- Witness for the membership criterion: on the column
`["ab", "abx"]` with threshold 50, the pair scores 80 and is in the
ResultSet. -/
theorem resultset_membership_iff_score_ge_witness :
    "ab" ∈ company_names [some "ab", some "abx"]
    ∧ "abx" ∈ company_names [some "ab", some "abx"]
    ∧ "ab" ≠ "abx"
    ∧ ((∃ m ∈ results_df [some "ab", some "abx"] 50,
        (m.companyName1 = "ab" ∧ m.companyName2 = "abx") ∨
          (m.companyName1 = "abx" ∧ m.companyName2 = "ab")) ↔
      (50 : Int) ≤ (fuzz.ratio "ab" "abx" : Int)) :=
  ⟨by decide, by decide, by decide,
    resultset_membership_iff_score_ge [some "ab", some "abx"] 50 "ab" "abx"
      (by decide) (by decide) (by decide)⟩

/-- C4: for a fixed candidate set, raising the threshold never increases
the size of the ResultSet. -/
theorem resultset_size_antitone (col : List (Option String)) (t1 t2 : Int)
    (h : t1 ≤ t2) : (results_df col t2).length ≤ (results_df col t1).length := by
  rw [(results_perm col t2).length_eq, (results_perm col t1).length_eq]
  unfold duplicates
  rw [← List.countP_eq_length_filter, ← List.countP_eq_length_filter]
  refine List.countP_mono_left fun m _ hm => ?_
  simp only [decide_eq_true_eq] at hm ⊢
  omega

/-- Witness for threshold monotonicity at thresholds 50 and 90 on the
column `["ab", "abx"]`. -/
theorem resultset_size_antitone_witness :
    (50 : Int) ≤ 90
    ∧ (results_df [some "ab", some "abx"] 90).length ≤
        (results_df [some "ab", some "abx"] 50).length :=
  ⟨by decide, resultset_size_antitone [some "ab", some "abx"] 50 90 (by decide)⟩

/-- C5: null entries are removed and exact-string duplicates collapsed to a
single candidate before any scoring; in particular, on the input
`["Acme Inc", "Acme Inc", None, "Acme Co"]` exactly one pair is compared,
namely `("Acme Inc", "Acme Co")` — not three. (The threshold plays no role
in which pairs are compared; the enumerated pairs are the same for every
threshold, 80 included.) -/
theorem dedup_and_dropna_before_scoring (col : List (Option String)) :
    (company_names col).Nodup
    ∧ (∀ s : String, s ∈ company_names col ↔ some s ∈ col)
    ∧ company_names [some "Acme Inc", some "Acme Inc", none, some "Acme Co"] =
        ["Acme Inc", "Acme Co"]
    ∧ comparedPairs [some "Acme Inc", some "Acme Inc", none, some "Acme Co"] =
        [("Acme Inc", "Acme Co")] := by
  refine ⟨company_names_nodup col, ?_, by decide, by decide⟩
  intro s
  rw [company_names, mem_unique]
  simp [dropna, List.mem_filterMap]

/-- C6: the similarity scorer is symmetric, so scoring a pair does not
depend on the order of its two candidates. -/
theorem score_symmetric (a b : String) : fuzz.ratio a b = fuzz.ratio b a :=
  fuzz.ratio_comm a b

/-- C7: the similarity scorer is reflexive at the maximum: every string
(the empty string included) scores 100 against itself. -/
theorem score_reflexive_at_max (a : String) :
    fuzz.ratio a a = 100 ∧ fuzz.ratio "" "" = 100 :=
  ⟨fuzz.ratio_self a, fuzz.ratio_self ""⟩

/-- Counterexample to C8: the engine performs no threshold validation. With
threshold 150 (above 100) the single pair of `["ab", "abx"]` is still
enumerated and scored, and an ordinary empty ResultSet comes back (the
no-duplicates outcome, not an error); with threshold -5 (below 0) the
ordinary filtered ResultSet comes back. No input-validation error exists
anywhere in the program. -/
theorem out_of_range_threshold_not_rejected :
    (comparedPairs [some "ab", some "abx"]).length = 1
    ∧ results_df [some "ab", some "abx"] 150 = []
    ∧ summaryOf [some "ab", some "abx"] 150 = none
    ∧ results_df [some "ab", some "abx"] (-5) =
        [MatchPair.mk "ab" "abx" 80] :=
  ⟨by decide, by decide, by decide, by decide⟩

/-- C8 amended: the engine never validates the threshold. Even for a
threshold outside [0, 100] it performs its full `C*(C-1)/2` comparison scan
and returns the ordinary inclusively-filtered ResultSet; no error outcome
exists. (In the application the slider restricts the threshold to
[50, 100], so an out-of-range value never reaches the engine.) -/
theorem threshold_out_of_range_scans_normally
    (col : List (Option String)) (t : Int) (_ht : t < 0 ∨ 100 < t) :
    (comparedPairs col).length =
        (company_names col).length * ((company_names col).length - 1) / 2
    ∧ ∀ m : MatchPair, m ∈ results_df col t ↔
        ∃ p ∈ comparedPairs col,
          m = MatchPair.mk p.1 p.2 (fuzz.ratio p.1 p.2)
          ∧ t ≤ (fuzz.ratio p.1 p.2 : Int) := by
  refine ⟨?_, fun m => ?_⟩
  · rw [comparedPairs, combinations2_length, Nat.choose_two_right]
  · rw [mem_results, mem_duplicates]

/-- Witness for the amended C8 at the out-of-range threshold 150. -/
theorem threshold_out_of_range_scans_normally_witness :
    ((150 : Int) < 0 ∨ (100 : Int) < 150)
    ∧ ((comparedPairs [some "ab", some "abx"]).length =
        (company_names [some "ab", some "abx"]).length *
          ((company_names [some "ab", some "abx"]).length - 1) / 2
    ∧ ∀ m : MatchPair, m ∈ results_df [some "ab", some "abx"] 150 ↔
        ∃ p ∈ comparedPairs [some "ab", some "abx"],
          m = MatchPair.mk p.1 p.2 (fuzz.ratio p.1 p.2)
          ∧ (150 : Int) ≤ (fuzz.ratio p.1 p.2 : Int)) :=
  ⟨by decide,
    threshold_out_of_range_scans_normally [some "ab", some "abx"] 150 (by decide)⟩

/-- C9: the Summary agrees with the ResultSet: the total equals the number
of rows, the mean times the row count equals the sum of the scores (the
mean is the arithmetic mean; when the ResultSet is empty no mean is
computed at all — `none` — so no division fault can occur), and the
high-confidence count is the number of rows with score at least 95. -/
theorem summary_matches_resultset (col : List (Option String)) (t : Int) :
    (results_df col t = [] → summaryOf col t = none)
    ∧ ∀ s : Summary, summaryOf col t = some s →
        s.totalPairs = (results_df col t).length
        ∧ s.avgSimilarity * ((results_df col t).length : ℚ) =
            (((results_df col t).map (fun m => m.similarityScore)).sum : ℚ)
        ∧ s.highConfidence =
            ((results_df col t).filter (fun m => decide (95 ≤ m.similarityScore))).length := by
  constructor
  · intro h
    simp [summaryOf, h]
  · intro s hs
    simp only [summaryOf] at hs
    by_cases h : (results_df col t).isEmpty
    · rw [if_pos h] at hs
      exact absurd hs (by simp)
    · rw [if_neg h] at hs
      have hlen : ((results_df col t).length : ℚ) ≠ 0 := by
        have : results_df col t ≠ [] := by
          intro he
          rw [he] at h
          exact h rfl
        have : (results_df col t).length ≠ 0 :=
          fun he => this (List.length_eq_zero.mp he)
        exact_mod_cast this
      obtain rfl : _ = s := Option.some_inj.mp hs
      refine ⟨rfl, ?_, rfl⟩
      exact div_mul_cancel₀ _ hlen

/-- C10 (implicit): deduplication keeps the candidates in the order of
their first occurrence in the null-stripped input, and in every ResultSet
row the left name's first occurrence strictly precedes the right name's.
(The whole pipeline is modelled by pure functions of the column and the
threshold, so the output is deterministic by construction.) -/
theorem dedup_order_and_left_precedes_right
    (col : List (Option String)) (t : Int) :
    (company_names col).Pairwise
        (fun a b => firstIdx (dropna col) a < firstIdx (dropna col) b)
    ∧ ∀ m ∈ results_df col t,
        firstIdx (dropna col) m.companyName1 < firstIdx (dropna col) m.companyName2 := by
  constructor
  · exact unique_pairwise (dropna col)
  · intro m hm
    exact combinations2_rel (unique_pairwise (dropna col)) _
      (mem_comparedPairs_of_mem_results hm)
